import Mathlib

/-!
Verification of the background-removal core of the ZetaConvert backend
(`src/app.py`): hex color parsing, border-average reference color,
the border-seeded flood fill `remove_bg_floodfill`, and the `/convert`
route's gating of the remove-background option.

Pixels are 8-bit channels modelled as naturals; machine integers in the
Python source are unbounded, so no wrap-around modelling is needed.
Operations that can raise in Python (pixel access out of range, division
by zero, `int(...)` parse failures, `abort(...)`) are modelled with
`Option` / `Except`.
-/

set_option maxRecDepth 4000

/-- An RGBA pixel as produced by `img.load()` on an RGBA-mode image:
four 8-bit channels, modelled as naturals. -/
structure RGBA where
  r : Nat
  g : Nat
  b : Nat
  a : Nat
deriving DecidableEq

/-- An RGB triple (reference colors, pixel colors with alpha dropped). -/
structure RGB where
  r : Nat
  g : Nat
  b : Nat
deriving DecidableEq

/-- Drop the alpha channel: `px[x, y][:3]`. -/
def rgbOf (p : RGBA) : RGB := ⟨p.r, p.g, p.b⟩

/-- Pixel value used for reads outside the stored grid. -/
def defaultPx : RGBA := ⟨0, 0, 0, 0⟩

/-- A decoded RGBA image: width, height and a row-major pixel grid
(`px[y][x]`), standing for a PIL image already converted to RGBA. -/
structure PImage where
  w : Nat
  h : Nat
  px : List (List RGBA)
deriving DecidableEq

/-- The grid really is `h` rows of `w` pixels (always true of a decoded
PIL image; stated explicitly because `PImage` does not enforce it). -/
def wellFormed (img : PImage) : Prop :=
  img.px.length = img.h ∧ ∀ row ∈ img.px, row.length = img.w

instance (img : PImage) : Decidable (wellFormed img) := by
  unfold wellFormed; exact inferInstance

/-- Unchecked pixel read `px[x, y]` (column `x`, row `y`); the flood fill
only reads it after its own bounds check. -/
def getPx (img : PImage) (x y : Int) : RGBA :=
  (img.px.getD y.toNat []).getD x.toNat defaultPx

/-- Checked Pillow pixel access `px[x, y]`: a negative index has the
dimension added once, anything still out of range raises (`none`). -/
def pilGet (img : PImage) (x y : Int) : Option RGBA :=
  let xx := if x < 0 then x + img.w else x
  let yy := if y < 0 then y + img.h else y
  if 0 ≤ xx ∧ xx < (img.w : Int) ∧ 0 ≤ yy ∧ yy < (img.h : Int) then
    some (getPx img xx yy)
  else
    none

/-- `px[x, y][:3]` through the checked access. -/
def pilGetRGB (img : PImage) (x y : Int) : Option RGB :=
  (pilGet img x y).map rgbOf

/-- `color_dist` (src/app.py lines 105-107): Manhattan distance of two
RGB triples, the only color metric in the system. -/
def color_dist (c ref : RGB) : Nat :=
  ((c.r : Int) - ref.r).natAbs + ((c.g : Int) - ref.g).natAbs + ((c.b : Int) - ref.b).natAbs

/-- Threshold derivation (src/app.py lines 131-132):
`tol = max(0, min(100, int(tolerance)))`, `thr = int(2.1 * tol)`.
For every integer `tol ∈ [0, 100]`, `int(2.1 * tol)` under IEEE-754
doubles equals `⌊21 * tol / 10⌋`: the double nearest 2.1 exceeds 21/10 by
ε ≈ 8.9e-17, so the exact product is at most `tol · ε ≤ 8.9e-15` above
`21·tol/10`, far less than half an ulp at magnitude ≤ 210; rounding the
product therefore never crosses an integer boundary. -/
def thresholdOf (tolerance : Int) : Nat :=
  21 * (max 0 (min 100 tolerance)).toNat / 10

/-- Sequential effectful map over `Option`, mirroring a Python loop that
raises at the first failing element. -/
def mapOpt (f : α → Option β) : List α → Option (List β)
  | [] => some []
  | a :: l =>
    match f a, mapOpt f l with
    | some b, some bs => some (b :: bs)
    | _, _ => none

/-- The border samples of `avg_border_color` (src/app.py lines 115-122)
in source order: first both full rows (`y = 0` and `y = h-1`) column by
column, then both full columns (`x = 0` and `x = w-1`) row by row.
Corner pixels are sampled twice.  The flood-fill seeding loop
(lines 157-160) walks the same cells in the same order. -/
def borderSamples (w h : Nat) : List (Int × Int) :=
  (((List.range w).map fun (x : Nat) => [((x : Int), 0), ((x : Int), (h : Int) - 1)]).flatten) ++
  (((List.range h).map fun (y : Nat) => [((0 : Int), (y : Int)), ((w : Int) - 1, (y : Int))]).flatten)

/-- `avg_border_color` (src/app.py lines 109-123): integer-truncated
per-channel mean of the border samples.  `none` where the Python raises:
out-of-range pixel access (`w = 0` or `h = 0` with the other positive)
or `ZeroDivisionError` on an empty sample list (`w = h = 0`). -/
def avg_border_color (img : PImage) : Option RGB :=
  match mapOpt (fun c => pilGetRGB img c.1 c.2) (borderSamples img.w img.h) with
  | none => none
  | some cs =>
    if cs.length = 0 then none
    else
      some ⟨(cs.map RGB.r).sum / cs.length,
            (cs.map RGB.g).sum / cs.length,
            (cs.map RGB.b).sum / cs.length⟩

/-- `ref_color if ref_color is not None else avg_border_color(img)`
(src/app.py lines 139-140). -/
def resolveRef (img : PImage) (ref_color : Option RGB) : Option RGB :=
  match ref_color with
  | some r => some r
  | none => avg_border_color img

/-- The whitespace characters stripped by Python's `str.strip()`
(restricted to the ASCII range, which covers every input of interest). -/
def isPySpace (c : Char) : Bool :=
  c = ' ' ∨ c = '\t' ∨ c = '\n' ∨ c = '\r' ∨ c = '\x0b' ∨ c = '\x0c'

/-- `str.strip()` on a character list. -/
def pyStrip (s : List Char) : List Char :=
  ((s.dropWhile isPySpace).reverse.dropWhile isPySpace).reverse

/-- Value of a hexadecimal digit, `none` for a non-digit. -/
def hexVal (c : Char) : Option Nat :=
  if '0' ≤ c ∧ c ≤ '9' then some (c.toNat - '0'.toNat)
  else if 'a' ≤ c ∧ c ≤ 'f' then some (c.toNat - 'a'.toNat + 10)
  else if 'A' ≤ c ∧ c ≤ 'F' then some (c.toNat - 'A'.toNat + 10)
  else none

/-- Python `int(s, 16)` restricted to the two-character slices
`h[i:i+2]` taken by `hex_to_rgb`: two hex digits, or one digit with a
leading sign or a leading/trailing whitespace character; anything else
raises `ValueError` (`none`). -/
def pyIntHex2 (a b : Char) : Option Int :=
  match hexVal a, hexVal b with
  | some x, some y => some ((16 * x + y : Nat) : Int)
  | _, _ =>
    if a = '+' then (hexVal b).map fun y => (y : Int)
    else if a = '-' then (hexVal b).map fun y => -(y : Int)
    else if isPySpace a then (hexVal b).map fun y => (y : Int)
    else if isPySpace b then (hexVal a).map fun x => (x : Int)
    else none

/-- Outcomes of `hex_to_rgb` other than success: the explicit
`abort(400, "Color inválido; usar #RRGGBB")`, and an uncaught
`ValueError` escaping from `int(h[i:i+2], 16)`. -/
inductive HexErr where
  | invalidColor
  | valueError
deriving DecidableEq

/-- The normalized digit string of `hex_to_rgb` before the length check:
`(h or "").strip().lstrip("#")` with the three-digit form expanded by
duplicating each character. -/
def hexDigits (h : Option String) : List Char :=
  let s0 := (pyStrip (h.getD "").data).dropWhile (fun c => c = '#')
  if s0.length = 3 then ((s0.map fun c => [c, c]).flatten) else s0

/-- `hex_to_rgb` (src/app.py lines 97-103).  A 3-digit string is expanded
by duplicating each digit; any length other than 6 at that point aborts
with `invalidColor`; the three byte slices are then parsed with
`int(·, 16)`, whose failure is an uncaught `ValueError`. -/
def hex_to_rgb (h : Option String) : Except HexErr (Int × Int × Int) :=
  match hexDigits h with
  | [c0, c1, c2, c3, c4, c5] =>
    match pyIntHex2 c0 c1 with
    | none => .error .valueError
    | some r =>
      match pyIntHex2 c2 c3 with
      | none => .error .valueError
      | some g =>
        match pyIntHex2 c4 c5 with
        | none => .error .valueError
        | some b => .ok (r, g, b)
  | _ => .error .invalidColor

/-- Client-visible failures of the `/convert` route modelled here:
`abort(415, "Formato destino no soportado")` from `pick_target`, and
`abort(400, "La opción 'eliminar fondo' sólo funciona al convertir a
PNG")` from the remove-background gate (src/app.py lines 236-237). -/
inductive ConvErr where
  | unsupportedTarget
  | removeBgNotPng
deriving DecidableEq

/-- The `TARGETS` table (src/app.py lines 15-22): output key to
`(PIL_SAVE_FORMAT, MIME)`. -/
def TARGETS : List (String × String × String) :=
  [("png", "PNG", "image/png"),
   ("jpg", "JPEG", "image/jpeg"),
   ("jpeg", "JPEG", "image/jpeg"),
   ("webp", "WEBP", "image/webp"),
   ("bmp", "BMP", "image/bmp"),
   ("tiff", "TIFF", "image/tiff")]

/-- `(raw or "").lower().strip().lstrip(".")` (src/app.py line 63). -/
def targetKey (raw : String) : String :=
  String.mk ((pyStrip ((raw.data).map Char.toLower)).dropWhile (fun c => c = '.'))

/-- `pick_target` (src/app.py lines 61-66): table lookup on the
normalized key, `415` on a miss. -/
def pick_target (raw : String) : Except ConvErr (String × String) :=
  match (TARGETS.filter fun t => t.1 = targetKey raw) with
  | [] => .error .unsupportedTarget
  | t :: _ => .ok t.2

/-- The remove-background gating of `/convert` (src/app.py lines
226, 236-237): resolve the target, then reject the request when
`remove_bg` is set and the PIL save format is not `"PNG"`.  Success
means the request proceeds to decoding/removal with that format. -/
def convertRemoveBgGate (target_raw : String) (remove_bg : Bool) :
    Except ConvErr (String × String) :=
  match pick_target target_raw with
  | .error e => .error e
  | .ok fm => if remove_bg ∧ fm.1 ≠ "PNG" then .error .removeBgNotPng else .ok fm

/-- Whether `prepare_modes` (src/app.py lines 78-92) preserves an alpha
channel for a PIL save format: only `"JPEG"` composites transparency
onto white; every other target keeps (or acquires) alpha.  This is the
code's own notion of an alpha-capable output. -/
def prepareModesKeepsAlpha (pil_fmt : String) : Bool :=
  pil_fmt ≠ "JPEG"

/-- In-bounds test `0 <= x < w and 0 <= y < h` used by `try_push` and the
neighbor loop (src/app.py lines 149, 166). -/
def inB (w h : Nat) (c : Int × Int) : Prop :=
  0 ≤ c.1 ∧ c.1 < (w : Int) ∧ 0 ≤ c.2 ∧ c.2 < (h : Int)

instance (w h : Nat) (c : Int × Int) : Decidable (inB w h c) := by
  unfold inB; exact inferInstance

/-- `color_dist(px[x, y][:3], ref_color) <= thr` (src/app.py lines 151, 168). -/
def matchesRef (img : PImage) (thr : Nat) (ref : RGB) (c : Int × Int) : Prop :=
  color_dist (rgbOf (getPx img c.1 c.2)) ref ≤ thr

instance (img : PImage) (thr : Nat) (ref : RGB) (c : Int × Int) :
    Decidable (matchesRef img thr ref c) := by
  unfold matchesRef; exact inferInstance

/-- The mutable state of one `remove_bg_floodfill` call: the `visited`
and `make_transp` boolean grids, represented by their sets of true
cells, and the FIFO `deque` (append right, pop left). -/
structure FillSt where
  visited : List (Int × Int)
  transp : List (Int × Int)
  queue : List (Int × Int)
deriving DecidableEq

/-- `try_push` (src/app.py lines 148-154): seed a cell when it is in
bounds, unvisited showing color within threshold; it is then marked
visited and transparent and enqueued. -/
def try_push (img : PImage) (thr : Nat) (ref : RGB) (s : FillSt) (c : Int × Int) : FillSt :=
  if inB img.w img.h c ∧ c ∉ s.visited ∧ matchesRef img thr ref c then
    ⟨c :: s.visited, c :: s.transp, s.queue ++ [c]⟩
  else s

/-- Body of the neighbor loop (src/app.py lines 165-173): an in-bounds
unvisited neighbor is marked visited, and additionally marked transparent
and enqueued when within threshold. -/
def visitNb (img : PImage) (thr : Nat) (ref : RGB) (s : FillSt) (c : Int × Int) : FillSt :=
  if inB img.w img.h c ∧ c ∉ s.visited then
    if matchesRef img thr ref c then
      ⟨c :: s.visited, c :: s.transp, s.queue ++ [c]⟩
    else
      ⟨c :: s.visited, s.transp, s.queue⟩
  else s

/-- The four axis-aligned neighbors, in source order
`(x+1, y), (x-1, y), (x, y+1), (x, y-1)` (src/app.py line 165). -/
def nbrs (c : Int × Int) : List (Int × Int) :=
  [(c.1 + 1, c.2), (c.1 - 1, c.2), (c.1, c.2 + 1), (c.1, c.2 - 1)]

/-- The `while q:` loop (src/app.py lines 163-173), fuel-indexed: pop the
front cell and run the neighbor loop on it.  `floodState` supplies fuel
proved sufficient to drain the queue (`bfsAux_queue_nil`), so the fuel
cutoff is never hit. -/
def bfsAux (img : PImage) (thr : Nat) (ref : RGB) : Nat → FillSt → FillSt
  | 0, s => s
  | Nat.succ fuel, s =>
    match s.queue with
    | [] => s
    | c :: rest =>
      bfsAux img thr ref fuel ((nbrs c).foldl (visitNb img thr ref) ⟨s.visited, s.transp, rest⟩)

/-- The seeding loops (src/app.py lines 157-160), which call `try_push`
on exactly the border cells, in `borderSamples` order. -/
def seedState (img : PImage) (thr : Nat) (ref : RGB) : FillSt :=
  (borderSamples img.w img.h).foldl (try_push img thr ref) ⟨[], [], []⟩

/-- Seeds plus the drained BFS loop: the final `visited` / `make_transp`
state of one flood fill. -/
def floodState (img : PImage) (thr : Nat) (ref : RGB) : FillSt :=
  let s0 := seedState img thr ref
  bfsAux img thr ref (5 * (img.w * img.h) + s0.queue.length) s0

/-- The output loop (src/app.py lines 175-181): a new `w × h` RGBA image
copying R, G, B and zeroing alpha exactly on masked cells. -/
def renderOut (img : PImage) (mask : List (Int × Int)) : PImage :=
  ⟨img.w, img.h,
    (List.range img.h).map fun (y : Nat) =>
      (List.range img.w).map fun (x : Nat) =>
        let p := getPx img (x : Int) (y : Int)
        if ((x : Int), (y : Int)) ∈ mask then ⟨p.r, p.g, p.b, 0⟩ else p⟩

/-- `remove_bg_floodfill` (src/app.py lines 125-181).  `none` models the
uncaught exception escaping from `avg_border_color` on a zero-area image
in auto mode; with a resolved reference the fill always completes. -/
def remove_bg_floodfill (img : PImage) (tolerance : Int) (ref_color : Option RGB) :
    Option PImage :=
  let thr := thresholdOf tolerance
  match resolveRef img ref_color with
  | none => none
  | some ref => some (renderOut img (floodState img thr ref).transp)

/-- A cell lies on the image border: exactly the cells passed to
`try_push` by the seeding loops. -/
def isBorder (w h : Nat) (c : Int × Int) : Prop :=
  c.2 = 0 ∨ c.2 = (h : Int) - 1 ∨ c.1 = 0 ∨ c.1 = (w : Int) - 1

instance (w h : Nat) (c : Int × Int) : Decidable (isBorder w h c) := by
  unfold isBorder; exact inferInstance

/-- The specification's reachability relation: a cell is background iff
it can be reached from some border cell through a chain of in-bounds
4-connected cells, every cell on the chain (endpoints included) within
threshold of the reference color. -/
inductive ReachBG (img : PImage) (thr : Nat) (ref : RGB) : Int × Int → Prop where
  | border (c : Int × Int) :
      inB img.w img.h c → isBorder img.w img.h c → matchesRef img thr ref c →
      ReachBG img thr ref c
  | step (c d : Int × Int) :
      ReachBG img thr ref c → d ∈ nbrs c → inB img.w img.h d →
      matchesRef img thr ref d → ReachBG img thr ref d

/-- All in-bounds cells, as a finite set (for the termination measure). -/
def allCells (w h : Nat) : Finset (Int × Int) :=
  (Finset.range w ×ˢ Finset.range h).image fun p => ((p.1 : Int), (p.2 : Int))

/-- Termination measure of the BFS loop: five per unvisited in-bounds
cell plus one per queued cell; every iteration strictly decreases it. -/
def meas (w h : Nat) (s : FillSt) : Nat :=
  5 * ((allCells w h).filter fun c => c ∉ s.visited).card + s.queue.length

variable {img : PImage} {thr : Nat} {ref : RGB}

theorem visitNb_visited_mono (s : FillSt) (c a : Int × Int) (h : a ∈ s.visited) :
    a ∈ (visitNb img thr ref s c).visited := by
  unfold visitNb
  by_cases h1 : inB img.w img.h c ∧ c ∉ s.visited
  · rw [if_pos h1]
    by_cases h2 : matchesRef img thr ref c
    · rw [if_pos h2]; exact List.mem_cons_of_mem _ h
    · rw [if_neg h2]; exact List.mem_cons_of_mem _ h
  · rw [if_neg h1]; exact h

theorem visitNb_transp_mono (s : FillSt) (c a : Int × Int) (h : a ∈ s.transp) :
    a ∈ (visitNb img thr ref s c).transp := by
  unfold visitNb
  by_cases h1 : inB img.w img.h c ∧ c ∉ s.visited
  · rw [if_pos h1]
    by_cases h2 : matchesRef img thr ref c
    · rw [if_pos h2]; exact List.mem_cons_of_mem _ h
    · rw [if_neg h2]; exact h
  · rw [if_neg h1]; exact h

theorem visitNb_queue_ext (s : FillSt) (c : Int × Int) :
    ∃ ext, (visitNb img thr ref s c).queue = s.queue ++ ext := by
  unfold visitNb
  by_cases h1 : inB img.w img.h c ∧ c ∉ s.visited
  · rw [if_pos h1]
    by_cases h2 : matchesRef img thr ref c
    · rw [if_pos h2]; exact ⟨[c], rfl⟩
    · rw [if_neg h2]; exact ⟨[], (List.append_nil _).symm⟩
  · rw [if_neg h1]; exact ⟨[], (List.append_nil _).symm⟩

theorem visitNb_visits (s : FillSt) (c : Int × Int) (hin : inB img.w img.h c) :
    c ∈ (visitNb img thr ref s c).visited := by
  by_cases hv : c ∈ s.visited
  · exact visitNb_visited_mono s c c hv
  · unfold visitNb
    rw [if_pos ⟨hin, hv⟩]
    by_cases h2 : matchesRef img thr ref c
    · rw [if_pos h2]; exact List.mem_cons_self _ _
    · rw [if_neg h2]; exact List.mem_cons_self _ _

theorem visitNb_transp_sub (s : FillSt) (c a : Int × Int)
    (h : a ∈ (visitNb img thr ref s c).transp) :
    a ∈ s.transp ∨ a ∈ (visitNb img thr ref s c).queue := by
  unfold visitNb at h ⊢
  by_cases h1 : inB img.w img.h c ∧ c ∉ s.visited
  · rw [if_pos h1] at h ⊢
    by_cases h2 : matchesRef img thr ref c
    · rw [if_pos h2] at h ⊢
      rcases List.mem_cons.1 h with rfl | h
      · exact Or.inr (List.mem_append_right _ (List.mem_singleton.2 rfl))
      · exact Or.inl h
    · rw [if_neg h2] at h ⊢; exact Or.inl h
  · rw [if_neg h1] at h ⊢; exact Or.inl h

theorem foldl_visitNb_visited_mono (L : List (Int × Int)) (s : FillSt) (a : Int × Int)
    (h : a ∈ s.visited) : a ∈ (L.foldl (visitNb img thr ref) s).visited := by
  induction L generalizing s with
  | nil => exact h
  | cons c L ih => exact ih _ (visitNb_visited_mono s c a h)

theorem foldl_visitNb_transp_mono (L : List (Int × Int)) (s : FillSt) (a : Int × Int)
    (h : a ∈ s.transp) : a ∈ (L.foldl (visitNb img thr ref) s).transp := by
  induction L generalizing s with
  | nil => exact h
  | cons c L ih => exact ih _ (visitNb_transp_mono s c a h)

theorem foldl_visitNb_queue_ext (L : List (Int × Int)) (s : FillSt) :
    ∃ ext, (L.foldl (visitNb img thr ref) s).queue = s.queue ++ ext := by
  induction L generalizing s with
  | nil => exact ⟨[], (List.append_nil _).symm⟩
  | cons c L ih =>
    obtain ⟨e1, h1⟩ := @visitNb_queue_ext img thr ref s c
    obtain ⟨e2, h2⟩ := ih (visitNb img thr ref s c)
    exact ⟨e1 ++ e2, by rw [List.foldl_cons, h2, h1, List.append_assoc]⟩

theorem foldl_visitNb_visits (L : List (Int × Int)) (s : FillSt) (d : Int × Int)
    (hd : d ∈ L) (hin : inB img.w img.h d) :
    d ∈ (L.foldl (visitNb img thr ref) s).visited := by
  induction L generalizing s with
  | nil => cases hd
  | cons c L ih =>
    rcases List.mem_cons.1 hd with rfl | hd
    · exact foldl_visitNb_visited_mono L _ d (visitNb_visits s d hin)
    · exact ih _ hd

theorem foldl_visitNb_transp_sub (L : List (Int × Int)) (s : FillSt) (a : Int × Int)
    (h : a ∈ (L.foldl (visitNb img thr ref) s).transp) :
    a ∈ s.transp ∨ a ∈ (L.foldl (visitNb img thr ref) s).queue := by
  induction L generalizing s with
  | nil => exact Or.inl h
  | cons c L ih =>
    rw [List.foldl_cons] at h ⊢
    rcases ih _ h with h' | h'
    · rcases visitNb_transp_sub s c a h' with h'' | h''
      · exact Or.inl h''
      · obtain ⟨ext, hext⟩ := @foldl_visitNb_queue_ext img thr ref L (visitNb img thr ref s c)
        exact Or.inr (hext ▸ List.mem_append_left _ h'')
    · exact Or.inr h'

theorem try_push_visited_mono (s : FillSt) (c a : Int × Int) (h : a ∈ s.visited) :
    a ∈ (try_push img thr ref s c).visited := by
  unfold try_push
  by_cases h1 : inB img.w img.h c ∧ c ∉ s.visited ∧ matchesRef img thr ref c
  · rw [if_pos h1]; exact List.mem_cons_of_mem _ h
  · rw [if_neg h1]; exact h

theorem try_push_transp_mono (s : FillSt) (c a : Int × Int) (h : a ∈ s.transp) :
    a ∈ (try_push img thr ref s c).transp := by
  unfold try_push
  by_cases h1 : inB img.w img.h c ∧ c ∉ s.visited ∧ matchesRef img thr ref c
  · rw [if_pos h1]; exact List.mem_cons_of_mem _ h
  · rw [if_neg h1]; exact h

theorem foldl_try_push_transp_mono (L : List (Int × Int)) (s : FillSt) (a : Int × Int)
    (h : a ∈ s.transp) : a ∈ (L.foldl (try_push img thr ref) s).transp := by
  induction L generalizing s with
  | nil => exact h
  | cons c L ih => exact ih _ (try_push_transp_mono s c a h)

theorem mem_allCells {w h : Nat} {c : Int × Int} : c ∈ allCells w h ↔ inB w h c := by
  unfold allCells inB
  simp only [Finset.mem_image, Finset.mem_product, Finset.mem_range]
  constructor
  · rintro ⟨p, ⟨h1, h2⟩, rfl⟩
    refine ⟨?_, ?_, ?_, ?_⟩ <;> simp <;> omega
  · rintro ⟨h1, h2, h3, h4⟩
    refine ⟨(c.1.toNat, c.2.toNat), ⟨?_, ?_⟩, ?_⟩
    · omega
    · omega
    · ext <;> simp <;> omega

theorem unvisited_sub {w h : Nat} (v : List (Int × Int)) (c : Int × Int) :
    ((allCells w h).filter fun a => a ∉ c :: v) ⊆ ((allCells w h).filter fun a => a ∉ v) := by
  intro a ha
  rw [Finset.mem_filter] at ha ⊢
  exact ⟨ha.1, fun hmem => ha.2 (List.mem_cons_of_mem _ hmem)⟩

theorem unvisited_card_lt {w h : Nat} (v : List (Int × Int)) (c : Int × Int)
    (hc : inB w h c) (hv : c ∉ v) :
    ((allCells w h).filter fun a => a ∉ c :: v).card <
      ((allCells w h).filter fun a => a ∉ v).card := by
  apply Finset.card_lt_card
  rw [Finset.ssubset_def]
  refine ⟨unvisited_sub v c, fun hsub => ?_⟩
  have hcmem : c ∈ (allCells w h).filter fun a => a ∉ v :=
    Finset.mem_filter.2 ⟨mem_allCells.2 hc, hv⟩
  have := hsub hcmem
  rw [Finset.mem_filter] at this
  exact this.2 (List.mem_cons_self c v)

theorem meas_mk (w h : Nat) (v t q : List (Int × Int)) :
    meas w h ⟨v, t, q⟩ = 5 * ((allCells w h).filter fun a => a ∉ v).card + q.length := rfl

theorem visitNb_meas (s : FillSt) (c : Int × Int) :
    meas img.w img.h (visitNb img thr ref s c) ≤ meas img.w img.h s := by
  have hs : meas img.w img.h s =
      5 * ((allCells img.w img.h).filter fun a => a ∉ s.visited).card + s.queue.length := rfl
  unfold visitNb
  by_cases h1 : inB img.w img.h c ∧ c ∉ s.visited
  · rw [if_pos h1]
    have hlt := unvisited_card_lt (w := img.w) (h := img.h) s.visited c h1.1 h1.2
    by_cases h2 : matchesRef img thr ref c
    · rw [if_pos h2, meas_mk, hs]
      simp only [List.length_append, List.length_singleton]
      omega
    · rw [if_neg h2, meas_mk, hs]
      omega
  · rw [if_neg h1]

theorem foldl_visitNb_meas (L : List (Int × Int)) (s : FillSt) :
    meas img.w img.h (L.foldl (visitNb img thr ref) s) ≤ meas img.w img.h s := by
  induction L generalizing s with
  | nil => exact le_rfl
  | cons c L ih => exact le_trans (ih _) (visitNb_meas s c)

theorem bfsAux_nil_queue (fuel : Nat) (s : FillSt) (hq : s.queue = []) :
    bfsAux img thr ref fuel s = s := by
  cases fuel with
  | zero => rfl
  | succ fuel =>
    unfold bfsAux
    rw [hq]

theorem bfsAux_succ (fuel : Nat) (s : FillSt) (c : Int × Int) (rest : List (Int × Int))
    (hq : s.queue = c :: rest) :
    bfsAux img thr ref (fuel + 1) s =
      bfsAux img thr ref fuel
        ((nbrs c).foldl (visitNb img thr ref) ⟨s.visited, s.transp, rest⟩) := by
  have hdef : bfsAux img thr ref (fuel + 1) s =
      match s.queue with
      | [] => s
      | c :: rest =>
        bfsAux img thr ref fuel
          ((nbrs c).foldl (visitNb img thr ref) ⟨s.visited, s.transp, rest⟩) := rfl
  rw [hdef, hq]

theorem meas_pop (s : FillSt) (c : Int × Int) (rest : List (Int × Int))
    (hq : s.queue = c :: rest) :
    meas img.w img.h (⟨s.visited, s.transp, rest⟩ : FillSt) + 1 = meas img.w img.h s := by
  have hs : meas img.w img.h s =
      5 * ((allCells img.w img.h).filter fun a => a ∉ s.visited).card + s.queue.length := rfl
  rw [meas_mk, hs, hq]
  simp only [List.length_cons]
  omega

theorem bfsAux_queue_nil (fuel : Nat) (s : FillSt) (hm : meas img.w img.h s ≤ fuel) :
    (bfsAux img thr ref fuel s).queue = [] := by
  induction fuel generalizing s with
  | zero =>
    have hs : meas img.w img.h s =
        5 * ((allCells img.w img.h).filter fun a => a ∉ s.visited).card + s.queue.length := rfl
    have : s.queue.length = 0 := by omega
    have hq : s.queue = [] := List.length_eq_zero.1 this
    rw [bfsAux_nil_queue 0 s hq]; exact hq
  | succ fuel ih =>
    match hq : s.queue with
    | [] => rw [bfsAux_nil_queue _ s hq]; exact hq
    | c :: rest =>
      rw [bfsAux_succ fuel s c rest hq]
      apply ih
      have hmid := @meas_pop img s c rest hq
      have hfold := @foldl_visitNb_meas img thr ref (nbrs c) ⟨s.visited, s.transp, rest⟩
      omega

theorem meas_le_init (w h : Nat) (s : FillSt) :
    meas w h s ≤ 5 * (w * h) + s.queue.length := by
  have hs : meas w h s =
      5 * ((allCells w h).filter fun a => a ∉ s.visited).card + s.queue.length := rfl
  have h1 : ((allCells w h).filter fun c => c ∉ s.visited).card ≤ (allCells w h).card :=
    Finset.card_filter_le _ _
  have h2 : (allCells w h).card ≤ w * h := by
    unfold allCells
    calc ((Finset.range w ×ˢ Finset.range h).image fun p => ((p.1 : Int), (p.2 : Int))).card
        ≤ (Finset.range w ×ˢ Finset.range h).card := Finset.card_image_le
      _ = w * h := by rw [Finset.card_product, Finset.card_range, Finset.card_range]
  omega

theorem floodState_queue_nil (img : PImage) (thr : Nat) (ref : RGB) :
    (floodState img thr ref).queue = [] := by
  unfold floodState
  exact bfsAux_queue_nil _ _ (meas_le_init img.w img.h _)

/-- Invariant of the seeding phase: visited, transparent and queued cells
coincide, and every one of them is background-reachable. -/
structure SeedInv (img : PImage) (thr : Nat) (ref : RGB) (s : FillSt) : Prop where
  vt : ∀ c ∈ s.visited, c ∈ s.transp
  tv : ∀ c ∈ s.transp, c ∈ s.visited
  tq : ∀ c ∈ s.transp, c ∈ s.queue
  qt : ∀ c ∈ s.queue, c ∈ s.transp
  snd : ∀ c ∈ s.transp, ReachBG img thr ref c

/-- Invariant of the BFS phase.  `cl` is the frontier property: a
transparent cell that is no longer queued has had all of its in-bounds
within-threshold neighbors visited. -/
structure FillInv (img : PImage) (thr : Nat) (ref : RGB) (s : FillSt) : Prop where
  tv : ∀ c ∈ s.transp, c ∈ s.visited
  qt : ∀ c ∈ s.queue, c ∈ s.transp
  vg : ∀ c ∈ s.visited, matchesRef img thr ref c → c ∈ s.transp
  snd : ∀ c ∈ s.transp, ReachBG img thr ref c
  cl : ∀ c ∈ s.transp, c ∉ s.queue →
      ∀ d ∈ nbrs c, inB img.w img.h d → matchesRef img thr ref d → d ∈ s.visited

theorem borderSamples_isBorder {w h : Nat} {c : Int × Int}
    (hc : c ∈ borderSamples w h) : isBorder w h c := by
  unfold borderSamples at hc
  rcases List.mem_append.1 hc with hc | hc <;>
    · simp only [List.mem_flatten, List.mem_map, List.mem_range] at hc
      obtain ⟨l, ⟨x, hx, rfl⟩, hcl⟩ := hc
      rcases List.mem_cons.1 hcl with rfl | hcl
      · simp [isBorder]
      · rcases List.mem_cons.1 hcl with rfl | hcl
        · simp [isBorder]
        · cases hcl

theorem mem_borderSamples {w h : Nat} {c : Int × Int}
    (hin : inB w h c) (hb : isBorder w h c) : c ∈ borderSamples w h := by
  obtain ⟨h1, h2, h3, h4⟩ := hin
  have hx : ((c.1.toNat : Nat) : Int) = c.1 := Int.toNat_of_nonneg h1
  have hy : ((c.2.toNat : Nat) : Int) = c.2 := Int.toNat_of_nonneg h3
  unfold borderSamples
  rcases hb with hb | hb | hb | hb
  · apply List.mem_append_left
    rw [List.mem_flatten]
    refine ⟨[(c.1, 0), (c.1, (h : Int) - 1)], ?_, ?_⟩
    · rw [List.mem_map]
      refine ⟨c.1.toNat, ?_, ?_⟩
      · rw [List.mem_range]; omega
      · rw [hx]
    · rw [← hb]
      exact List.mem_cons_self _ _
  · apply List.mem_append_left
    rw [List.mem_flatten]
    refine ⟨[(c.1, 0), (c.1, (h : Int) - 1)], ?_, ?_⟩
    · rw [List.mem_map]
      refine ⟨c.1.toNat, ?_, ?_⟩
      · rw [List.mem_range]; omega
      · rw [hx]
    · rw [← hb]
      exact List.mem_cons_of_mem _ (List.mem_cons_self _ _)
  · apply List.mem_append_right
    rw [List.mem_flatten]
    refine ⟨[(0, c.2), ((w : Int) - 1, c.2)], ?_, ?_⟩
    · rw [List.mem_map]
      refine ⟨c.2.toNat, ?_, ?_⟩
      · rw [List.mem_range]; omega
      · rw [hy]
    · rw [← hb]
      exact List.mem_cons_self _ _
  · apply List.mem_append_right
    rw [List.mem_flatten]
    refine ⟨[(0, c.2), ((w : Int) - 1, c.2)], ?_, ?_⟩
    · rw [List.mem_map]
      refine ⟨c.2.toNat, ?_, ?_⟩
      · rw [List.mem_range]; omega
      · rw [hy]
    · rw [← hb]
      exact List.mem_cons_of_mem _ (List.mem_cons_self _ _)

theorem seedInv_try_push (s : FillSt) (c : Int × Int)
    (hb : isBorder img.w img.h c) (H : SeedInv img thr ref s) :
    SeedInv img thr ref (try_push img thr ref s c) := by
  unfold try_push
  by_cases h1 : inB img.w img.h c ∧ c ∉ s.visited ∧ matchesRef img thr ref c
  · rw [if_pos h1]
    refine ⟨?_, ?_, ?_, ?_, ?_⟩
    · intro a ha
      rcases List.mem_cons.1 ha with rfl | ha
      · exact List.mem_cons_self _ _
      · exact List.mem_cons_of_mem _ (H.vt a ha)
    · intro a ha
      rcases List.mem_cons.1 ha with rfl | ha
      · exact List.mem_cons_self _ _
      · exact List.mem_cons_of_mem _ (H.tv a ha)
    · intro a ha
      rcases List.mem_cons.1 ha with rfl | ha
      · exact List.mem_append_right _ (List.mem_singleton.2 rfl)
      · exact List.mem_append_left _ (H.tq a ha)
    · intro a ha
      rcases List.mem_append.1 ha with ha | ha
      · exact List.mem_cons_of_mem _ (H.qt a ha)
      · rw [List.mem_singleton.1 ha]
        exact List.mem_cons_self _ _
    · intro a ha
      rcases List.mem_cons.1 ha with rfl | ha
      · exact ReachBG.border a h1.1 hb h1.2.2
      · exact H.snd a ha
  · rw [if_neg h1]; exact H

theorem seedInv_foldl (L : List (Int × Int)) (s : FillSt)
    (hL : ∀ c ∈ L, isBorder img.w img.h c) (H : SeedInv img thr ref s) :
    SeedInv img thr ref (L.foldl (try_push img thr ref) s) := by
  induction L generalizing s with
  | nil => exact H
  | cons c L ih =>
    exact ih _ (fun d hd => hL d (List.mem_cons_of_mem _ hd))
      (seedInv_try_push s c (hL c (List.mem_cons_self _ _)) H)

theorem seedInv_seedState : SeedInv img thr ref (seedState img thr ref) := by
  unfold seedState
  apply seedInv_foldl
  · intro c hc
    exact borderSamples_isBorder hc
  · exact ⟨fun c hc => absurd hc (List.not_mem_nil c),
      fun c hc => absurd hc (List.not_mem_nil c),
      fun c hc => absurd hc (List.not_mem_nil c),
      fun c hc => absurd hc (List.not_mem_nil c),
      fun c hc => absurd hc (List.not_mem_nil c)⟩

theorem fillInv_of_seedInv (s : FillSt) (H : SeedInv img thr ref s) :
    FillInv img thr ref s :=
  ⟨H.tv, H.qt, fun c hc _ => H.vt c hc, H.snd,
   fun c hc hq => absurd (H.tq c hc) hq⟩

theorem foldl_try_push_transp_of_mem (L : List (Int × Int)) (s : FillSt)
    (hvt : ∀ a ∈ s.visited, a ∈ s.transp) (c : Int × Int) (hc : c ∈ L)
    (hin : inB img.w img.h c) (hm : matchesRef img thr ref c) :
    c ∈ (L.foldl (try_push img thr ref) s).transp := by
  induction L generalizing s with
  | nil => cases hc
  | cons d L ih =>
    rw [List.foldl_cons]
    have hvt' : ∀ a ∈ (try_push img thr ref s d).visited, a ∈ (try_push img thr ref s d).transp := by
      intro a ha
      unfold try_push at ha ⊢
      by_cases h1 : inB img.w img.h d ∧ d ∉ s.visited ∧ matchesRef img thr ref d
      · rw [if_pos h1] at ha ⊢
        rcases List.mem_cons.1 ha with rfl | ha
        · exact List.mem_cons_self _ _
        · exact List.mem_cons_of_mem _ (hvt a ha)
      · rw [if_neg h1] at ha ⊢
        exact hvt a ha
    rcases List.mem_cons.1 hc with rfl | hc
    · apply foldl_try_push_transp_mono
      by_cases hv : c ∈ s.visited
      · exact try_push_transp_mono s c c (hvt c hv)
      · unfold try_push
        rw [if_pos ⟨hin, hv, hm⟩]
        exact List.mem_cons_self _ _
    · exact ih _ hvt' hc

/-- The four `FillInv` fields other than `cl`, preserved by each neighbor
visit whose cell is known reachable when in bounds and matching. -/
structure PartInv (img : PImage) (thr : Nat) (ref : RGB) (s : FillSt) : Prop where
  tv : ∀ c ∈ s.transp, c ∈ s.visited
  qt : ∀ c ∈ s.queue, c ∈ s.transp
  vg : ∀ c ∈ s.visited, matchesRef img thr ref c → c ∈ s.transp
  snd : ∀ c ∈ s.transp, ReachBG img thr ref c

theorem partInv_visitNb (s : FillSt) (c : Int × Int)
    (Hc : inB img.w img.h c → matchesRef img thr ref c → ReachBG img thr ref c)
    (H : PartInv img thr ref s) : PartInv img thr ref (visitNb img thr ref s c) := by
  unfold visitNb
  by_cases h1 : inB img.w img.h c ∧ c ∉ s.visited
  · rw [if_pos h1]
    by_cases h2 : matchesRef img thr ref c
    · rw [if_pos h2]
      refine ⟨?_, ?_, ?_, ?_⟩
      · intro a ha
        rcases List.mem_cons.1 ha with rfl | ha
        · exact List.mem_cons_self _ _
        · exact List.mem_cons_of_mem _ (H.tv a ha)
      · intro a ha
        rcases List.mem_append.1 ha with ha | ha
        · exact List.mem_cons_of_mem _ (H.qt a ha)
        · rw [List.mem_singleton.1 ha]
          exact List.mem_cons_self _ _
      · intro a ha _
        rcases List.mem_cons.1 ha with rfl | ha
        · exact List.mem_cons_self _ _
        · exact List.mem_cons_of_mem _ (H.vg a ha (by assumption))
      · intro a ha
        rcases List.mem_cons.1 ha with rfl | ha
        · exact Hc h1.1 h2
        · exact H.snd a ha
    · rw [if_neg h2]
      refine ⟨?_, ?_, ?_, ?_⟩
      · intro a ha
        exact List.mem_cons_of_mem _ (H.tv a ha)
      · exact H.qt
      · intro a ha hm
        rcases List.mem_cons.1 ha with rfl | ha
        · exact absurd hm h2
        · exact H.vg a ha hm
      · exact H.snd
  · rw [if_neg h1]; exact H

theorem partInv_foldl (L : List (Int × Int)) (s : FillSt)
    (HL : ∀ d ∈ L, inB img.w img.h d → matchesRef img thr ref d → ReachBG img thr ref d)
    (H : PartInv img thr ref s) :
    PartInv img thr ref (L.foldl (visitNb img thr ref) s) := by
  induction L generalizing s with
  | nil => exact H
  | cons c L ih =>
    exact ih _ (fun d hd => HL d (List.mem_cons_of_mem _ hd))
      (partInv_visitNb s c (HL c (List.mem_cons_self _ _)) H)

theorem fillInv_step (s : FillSt) (c : Int × Int) (rest : List (Int × Int))
    (hq : s.queue = c :: rest) (H : FillInv img thr ref s) :
    FillInv img thr ref
      ((nbrs c).foldl (visitNb img thr ref) ⟨s.visited, s.transp, rest⟩) := by
  have hcT : c ∈ s.transp := H.qt c (hq ▸ List.mem_cons_self c rest)
  have hcR : ReachBG img thr ref c := H.snd c hcT
  have HL : ∀ d ∈ nbrs c, inB img.w img.h d → matchesRef img thr ref d →
      ReachBG img thr ref d :=
    fun d hd hin hm => ReachBG.step c d hcR hd hin hm
  have H1 : PartInv img thr ref (⟨s.visited, s.transp, rest⟩ : FillSt) :=
    ⟨H.tv, fun a ha => H.qt a (hq ▸ List.mem_cons_of_mem _ ha), H.vg, H.snd⟩
  have H2 := partInv_foldl (nbrs c) _ HL H1
  refine ⟨H2.tv, H2.qt, H2.vg, H2.snd, ?_⟩
  intro t ht hnq d hd hin hm
  rcases foldl_visitNb_transp_sub (nbrs c) _ t ht with htT | htQ
  · by_cases htc : t = c
    · subst htc
      exact foldl_visitNb_visits (nbrs t) _ d hd hin
    · have htq : t ∉ s.queue := by
        intro hmem
        rw [hq] at hmem
        rcases List.mem_cons.1 hmem with rfl | hmem
        · exact htc rfl
        · obtain ⟨ext, hext⟩ := @foldl_visitNb_queue_ext img thr ref (nbrs c)
            (⟨s.visited, s.transp, rest⟩ : FillSt)
          exact hnq (hext ▸ List.mem_append_left _ hmem)
      exact foldl_visitNb_visited_mono (nbrs c) _ d (H.cl t htT htq d hd hin hm)
  · exact absurd htQ hnq

theorem bfsAux_fillInv (fuel : Nat) (s : FillSt) (H : FillInv img thr ref s) :
    FillInv img thr ref (bfsAux img thr ref fuel s) := by
  induction fuel generalizing s with
  | zero => exact H
  | succ fuel ih =>
    match hq : s.queue with
    | [] => rw [bfsAux_nil_queue _ s hq]; exact H
    | c :: rest =>
      rw [bfsAux_succ fuel s c rest hq]
      exact ih _ (fillInv_step s c rest hq H)

theorem bfsAux_transp_mono (fuel : Nat) (s : FillSt) (a : Int × Int) (h : a ∈ s.transp) :
    a ∈ (bfsAux img thr ref fuel s).transp := by
  induction fuel generalizing s with
  | zero => exact h
  | succ fuel ih =>
    match hq : s.queue with
    | [] => rw [bfsAux_nil_queue _ s hq]; exact h
    | c :: rest =>
      rw [bfsAux_succ fuel s c rest hq]
      exact ih _ (foldl_visitNb_transp_mono (nbrs c) _ a h)

theorem floodState_fillInv (img : PImage) (thr : Nat) (ref : RGB) :
    FillInv img thr ref (floodState img thr ref) := by
  unfold floodState
  exact bfsAux_fillInv _ _ (fillInv_of_seedInv _ seedInv_seedState)

/-- The flood-fill transparency mask is exactly border-reachability: the
central soundness/completeness theorem about `remove_bg_floodfill`'s
marking phase.  Since `ReachBG` is traversal-order free, this also shows
the mask does not depend on the traversal order. -/
theorem floodState_transp_iff (img : PImage) (thr : Nat) (ref : RGB) (c : Int × Int) :
    c ∈ (floodState img thr ref).transp ↔ ReachBG img thr ref c := by
  constructor
  · exact fun hc => (floodState_fillInv img thr ref).snd c hc
  · intro hr
    induction hr with
    | border c hin hb hm =>
      have hseed : c ∈ (seedState img thr ref).transp := by
        unfold seedState
        exact foldl_try_push_transp_of_mem _ _
          (fun a ha => absurd ha (List.not_mem_nil a))
          c (mem_borderSamples hin hb) hin hm
      unfold floodState
      exact bfsAux_transp_mono _ _ c hseed
    | step c d hcR hd hin hm ih =>
      have hfin := floodState_fillInv img thr ref
      have hnq : c ∉ (floodState img thr ref).queue := by
        rw [floodState_queue_nil]
        exact List.not_mem_nil c
      exact hfin.vg d (hfin.cl c ih hnq d hd hin hm) hm

theorem reachBG_inB {c : Int × Int} (h : ReachBG img thr ref c) : inB img.w img.h c := by
  cases h with
  | border c hin _ _ => exact hin
  | step c d _ _ hin _ => exact hin

theorem getD_map_range (f : Nat → α) (n i : Nat) (hi : i < n) (d : α) :
    ((List.range n).map f).getD i d = f i := by
  rw [List.getD_eq_getElem?_getD, List.getElem?_map, List.getElem?_range hi]
  rfl

theorem getD_eq_default_of_le {l : List α} {n : Nat} (d : α) (h : l.length ≤ n) :
    l.getD n d = d :=
  List.getD_eq_default l d h

theorem renderOut_w (mask : List (Int × Int)) : (renderOut img mask).w = img.w := rfl

theorem renderOut_h (mask : List (Int × Int)) : (renderOut img mask).h = img.h := rfl

theorem renderOut_wellFormed (mask : List (Int × Int)) : wellFormed (renderOut img mask) := by
  constructor
  · simp [renderOut]
  · intro row hrow
    simp only [renderOut, List.mem_map, List.mem_range] at hrow
    obtain ⟨y, _, rfl⟩ := hrow
    simp [renderOut]

theorem getPx_renderOut (mask : List (Int × Int)) (x y : Nat)
    (hx : x < img.w) (hy : y < img.h) :
    getPx (renderOut img mask) (x : Int) (y : Int) =
      (if ((x : Int), (y : Int)) ∈ mask then
        ⟨(getPx img (x : Int) (y : Int)).r, (getPx img (x : Int) (y : Int)).g,
         (getPx img (x : Int) (y : Int)).b, 0⟩
       else getPx img (x : Int) (y : Int)) := by
  unfold getPx renderOut
  simp only [Int.toNat_natCast]
  rw [getD_map_range _ img.h y hy, getD_map_range _ img.w x hx]
  unfold getPx
  simp only [Int.toNat_natCast]

theorem getPx_img_default (hwf : wellFormed img) {x y : Int}
    (h : ¬(x.toNat < img.w ∧ y.toNat < img.h)) : getPx img x y = defaultPx := by
  unfold getPx
  by_cases hy : y.toNat < img.h
  · have hx : ¬x.toNat < img.w := fun hx => h ⟨hx, hy⟩
    apply getD_eq_default_of_le
    have hmem : img.px.getD y.toNat [] ∈ img.px := by
      have hlt : y.toNat < img.px.length := hwf.1 ▸ hy
      rw [List.getD_eq_getElem?_getD, List.getElem?_eq_getElem hlt]
      exact List.getElem_mem hlt
    rw [hwf.2 _ hmem]
    omega
  · have h1 : img.px.length ≤ y.toNat := by rw [hwf.1]; omega
    rw [getD_eq_default_of_le [] h1]
    rfl

theorem rgb_getPx_renderOut (hwf : wellFormed img) (mask : List (Int × Int)) (x y : Int) :
    rgbOf (getPx (renderOut img mask) x y) = rgbOf (getPx img x y) := by
  by_cases hb : x.toNat < img.w ∧ y.toNat < img.h
  · have hcast : getPx (renderOut img mask) x y =
        getPx (renderOut img mask) ((x.toNat : Nat) : Int) ((y.toNat : Nat) : Int) := by
      unfold getPx
      rw [Int.toNat_natCast, Int.toNat_natCast]
    have hcast2 : getPx img x y = getPx img ((x.toNat : Nat) : Int) ((y.toNat : Nat) : Int) := by
      unfold getPx
      rw [Int.toNat_natCast, Int.toNat_natCast]
    rw [hcast, hcast2, getPx_renderOut mask x.toNat y.toNat hb.1 hb.2]
    by_cases hm : ((x.toNat : Int), (y.toNat : Int)) ∈ mask
    · rw [if_pos hm]; rfl
    · rw [if_neg hm]
  · rw [getPx_img_default (renderOut_wellFormed mask) (by
        rw [renderOut_w, renderOut_h]; exact hb),
      getPx_img_default hwf hb]

/-- Everything the flood fill and the border average read from an image:
its dimensions and the RGB channels of its pixels. -/
def sameRGBData (i1 i2 : PImage) : Prop :=
  i1.w = i2.w ∧ i1.h = i2.h ∧
    ∀ x y : Int, rgbOf (getPx i1 x y) = rgbOf (getPx i2 x y)

theorem matchesRef_congr {i1 i2 : PImage} (hs : sameRGBData i1 i2) (thr : Nat) (ref : RGB)
    (c : Int × Int) : matchesRef i1 thr ref c ↔ matchesRef i2 thr ref c := by
  unfold matchesRef
  rw [hs.2.2 c.1 c.2]

theorem inB_congr {i1 i2 : PImage} (hs : sameRGBData i1 i2) (c : Int × Int) :
    inB i1.w i1.h c ↔ inB i2.w i2.h c := by
  rw [hs.1, hs.2.1]

theorem try_push_congr {i1 i2 : PImage} (hs : sameRGBData i1 i2) (thr : Nat) (ref : RGB)
    (s : FillSt) (c : Int × Int) :
    try_push i1 thr ref s c = try_push i2 thr ref s c := by
  unfold try_push
  by_cases h1 : inB i1.w i1.h c ∧ c ∉ s.visited ∧ matchesRef i1 thr ref c
  · have h2 : inB i2.w i2.h c ∧ c ∉ s.visited ∧ matchesRef i2 thr ref c :=
      ⟨(inB_congr hs c).1 h1.1, h1.2.1, (matchesRef_congr hs thr ref c).1 h1.2.2⟩
    rw [if_pos h1, if_pos h2]
  · have h2 : ¬(inB i2.w i2.h c ∧ c ∉ s.visited ∧ matchesRef i2 thr ref c) := by
      intro h2
      exact h1 ⟨(inB_congr hs c).2 h2.1, h2.2.1, (matchesRef_congr hs thr ref c).2 h2.2.2⟩
    rw [if_neg h1, if_neg h2]

theorem visitNb_congr {i1 i2 : PImage} (hs : sameRGBData i1 i2) (thr : Nat) (ref : RGB)
    (s : FillSt) (c : Int × Int) :
    visitNb i1 thr ref s c = visitNb i2 thr ref s c := by
  unfold visitNb
  by_cases h1 : inB i1.w i1.h c ∧ c ∉ s.visited
  · have h2 : inB i2.w i2.h c ∧ c ∉ s.visited := ⟨(inB_congr hs c).1 h1.1, h1.2⟩
    rw [if_pos h1, if_pos h2]
    by_cases hm : matchesRef i1 thr ref c
    · rw [if_pos hm, if_pos ((matchesRef_congr hs thr ref c).1 hm)]
    · rw [if_neg hm, if_neg (fun hm2 => hm ((matchesRef_congr hs thr ref c).2 hm2))]
  · have h2 : ¬(inB i2.w i2.h c ∧ c ∉ s.visited) := by
      intro h2
      exact h1 ⟨(inB_congr hs c).2 h2.1, h2.2⟩
    rw [if_neg h1, if_neg h2]

theorem seedState_congr {i1 i2 : PImage} (hs : sameRGBData i1 i2) (thr : Nat) (ref : RGB) :
    seedState i1 thr ref = seedState i2 thr ref := by
  unfold seedState
  rw [hs.1, hs.2.1]
  congr 1
  funext s c
  exact try_push_congr hs thr ref s c

theorem bfsAux_congr {i1 i2 : PImage} (hs : sameRGBData i1 i2) (thr : Nat) (ref : RGB)
    (fuel : Nat) (s : FillSt) :
    bfsAux i1 thr ref fuel s = bfsAux i2 thr ref fuel s := by
  induction fuel generalizing s with
  | zero => rfl
  | succ fuel ih =>
    match hq : s.queue with
    | [] => rw [bfsAux_nil_queue _ s hq, bfsAux_nil_queue _ s hq]
    | c :: rest =>
      rw [bfsAux_succ fuel s c rest hq, bfsAux_succ fuel s c rest hq]
      have hfold : (nbrs c).foldl (visitNb i1 thr ref) ⟨s.visited, s.transp, rest⟩ =
          (nbrs c).foldl (visitNb i2 thr ref) ⟨s.visited, s.transp, rest⟩ := by
        congr 1
        funext s' c'
        exact visitNb_congr hs thr ref s' c'
      rw [hfold, ih]

theorem floodState_congr {i1 i2 : PImage} (hs : sameRGBData i1 i2) (thr : Nat) (ref : RGB) :
    floodState i1 thr ref = floodState i2 thr ref := by
  unfold floodState
  rw [seedState_congr hs thr ref, hs.1, hs.2.1, bfsAux_congr hs thr ref]

theorem pilGetRGB_congr {i1 i2 : PImage} (hs : sameRGBData i1 i2) (x y : Int) :
    pilGetRGB i1 x y = pilGetRGB i2 x y := by
  unfold pilGetRGB pilGet
  rw [hs.1, hs.2.1]
  by_cases hc : 0 ≤ (if x < 0 then x + i2.w else x) ∧
      (if x < 0 then x + i2.w else x) < (i2.w : Int) ∧
      0 ≤ (if y < 0 then y + i2.h else y) ∧ (if y < 0 then y + i2.h else y) < (i2.h : Int)
  · rw [if_pos hc, if_pos hc]
    rw [Option.map_some', Option.map_some', hs.2.2]
  · rw [if_neg hc, if_neg hc]

theorem mapOpt_congr {f g : α → Option β} (l : List α) (h : ∀ a ∈ l, f a = g a) :
    mapOpt f l = mapOpt g l := by
  induction l with
  | nil => rfl
  | cons a l ih =>
    unfold mapOpt
    rw [h a (List.mem_cons_self _ _), ih (fun b hb => h b (List.mem_cons_of_mem _ hb))]

theorem avg_border_color_congr {i1 i2 : PImage} (hs : sameRGBData i1 i2) :
    avg_border_color i1 = avg_border_color i2 := by
  unfold avg_border_color
  rw [hs.1, hs.2.1,
    mapOpt_congr (borderSamples i2.w i2.h) (fun c _ => pilGetRGB_congr hs c.1 c.2)]

theorem resolveRef_congr {i1 i2 : PImage} (hs : sameRGBData i1 i2) (refOpt : Option RGB) :
    resolveRef i1 refOpt = resolveRef i2 refOpt := by
  unfold resolveRef
  cases refOpt with
  | some r => rfl
  | none => exact avg_border_color_congr hs

theorem sameRGBData_renderOut (hwf : wellFormed img) (mask : List (Int × Int)) :
    sameRGBData (renderOut img mask) img :=
  ⟨rfl, rfl, fun x y => rgb_getPx_renderOut hwf mask x y⟩

theorem renderOut_renderOut (mask : List (Int × Int)) :
    renderOut (renderOut img mask) mask = renderOut img mask := by
  show PImage.mk img.w img.h _ = PImage.mk img.w img.h _
  apply congrArg (PImage.mk img.w img.h)
  apply List.map_congr_left
  intro y hy
  apply List.map_congr_left
  intro x hx
  rw [List.mem_range] at hy hx
  dsimp only
  rw [@getPx_renderOut img mask x y hx hy]
  by_cases hm : ((x : Int), (y : Int)) ∈ mask
  · rw [if_pos hm, if_pos hm]
  · rw [if_neg hm, if_neg hm]

theorem remove_bg_floodfill_some (img : PImage) (tol : Int) (refOpt : Option RGB)
    (ref : RGB) (hres : resolveRef img refOpt = some ref) :
    remove_bg_floodfill img tol refOpt =
      some (renderOut img (floodState img (thresholdOf tol) ref).transp) := by
  unfold remove_bg_floodfill
  rw [hres]

theorem remove_bg_floodfill_idem_aux (hwf : wellFormed img) (tol : Int)
    (refOpt : Option RGB) (out : PImage)
    (h : remove_bg_floodfill img tol refOpt = some out) :
    remove_bg_floodfill out tol refOpt = some out := by
  cases hres : resolveRef img refOpt with
  | none =>
    unfold remove_bg_floodfill at h
    rw [hres] at h
    cases h
  | some ref =>
    rw [remove_bg_floodfill_some img tol refOpt ref hres] at h
    injection h with h'
    subst h'
    have hsame : sameRGBData
        (renderOut img (floodState img (thresholdOf tol) ref).transp) img :=
      sameRGBData_renderOut hwf _
    have hres2 : resolveRef (renderOut img (floodState img (thresholdOf tol) ref).transp)
        refOpt = some ref := by
      rw [resolveRef_congr hsame refOpt, hres]
    rw [remove_bg_floodfill_some _ tol refOpt ref hres2,
      floodState_congr hsame (thresholdOf tol) ref,
      renderOut_renderOut]

/-- Modelled from the spec (§4.1): the border as "both full rows y=0 and
y=h-1, and both full columns x=0 and x=w-1", listed pass by pass, so each
corner appears once per pass (twice in total). -/
def specBorderCells (w h : Nat) : List (Int × Int) :=
  ((List.range w).map fun (x : Nat) => ((x : Int), (0 : Int))) ++
  ((List.range w).map fun (x : Nat) => ((x : Int), (h : Int) - 1)) ++
  ((List.range h).map fun (y : Nat) => ((0 : Int), (y : Int))) ++
  ((List.range h).map fun (y : Nat) => ((w : Int) - 1, (y : Int)))

/-- Modelled from the spec (§4.1): per-channel integer-truncated mean of
the RGB values over the spec's border multiset. -/
def specBorderMean (img : PImage) : RGB :=
  let cs := (specBorderCells img.w img.h).map fun c => rgbOf (getPx img c.1 c.2)
  ⟨(cs.map RGB.r).sum / cs.length,
   (cs.map RGB.g).sum / cs.length,
   (cs.map RGB.b).sum / cs.length⟩

theorem flatten_pair_perm (f g : Nat → α) (l : List Nat) :
    ((l.map fun x => [f x, g x]).flatten).Perm (l.map f ++ l.map g) := by
  induction l with
  | nil => simp
  | cons a l ih =>
    simp only [List.map_cons, List.flatten_cons, List.cons_append]
    refine List.Perm.trans (((ih).cons (g a)).cons (f a)) ?_
    refine List.Perm.cons (f a) ?_
    exact List.perm_middle.symm

theorem borderSamples_perm (w h : Nat) :
    (borderSamples w h).Perm (specBorderCells w h) := by
  unfold borderSamples specBorderCells
  refine List.Perm.trans (List.Perm.append (flatten_pair_perm _ _ _) (flatten_pair_perm _ _ _)) ?_
  simp only [List.append_assoc]
  exact List.Perm.refl _

theorem mapOpt_eq_some_map {f : α → Option β} {g : α → β} (l : List α)
    (h : ∀ a ∈ l, f a = some (g a)) : mapOpt f l = some (l.map g) := by
  induction l with
  | nil => rfl
  | cons a l ih =>
    unfold mapOpt
    rw [h a (List.mem_cons_self _ _), ih (fun b hb => h b (List.mem_cons_of_mem _ hb))]
    rfl

theorem mapOpt_none_of_mem {f : α → Option β} {l : List α} {a : α}
    (ha : a ∈ l) (hf : f a = none) : mapOpt f l = none := by
  induction l with
  | nil => cases ha
  | cons b l ih =>
    unfold mapOpt
    rcases List.mem_cons.1 ha with rfl | ha
    · rw [hf]
    · rw [ih ha]
      cases f b <;> rfl

theorem borderSamples_inB {w h : Nat} (hw : 1 ≤ w) (hh : 1 ≤ h) {c : Int × Int}
    (hc : c ∈ borderSamples w h) : inB w h c := by
  unfold borderSamples at hc
  rcases List.mem_append.1 hc with hc | hc <;>
    · simp only [List.mem_flatten, List.mem_map, List.mem_range] at hc
      obtain ⟨l, ⟨x, hx, rfl⟩, hcl⟩ := hc
      rcases List.mem_cons.1 hcl with rfl | hcl
      · refine ⟨?_, ?_, ?_, ?_⟩ <;> simp <;> omega
      · rcases List.mem_cons.1 hcl with rfl | hcl
        · refine ⟨?_, ?_, ?_, ?_⟩ <;> simp <;> omega
        · cases hcl

theorem pilGetRGB_of_inB {c : Int × Int} (hc : inB img.w img.h c) :
    pilGetRGB img c.1 c.2 = some (rgbOf (getPx img c.1 c.2)) := by
  obtain ⟨h1, h2, h3, h4⟩ := hc
  unfold pilGetRGB pilGet
  rw [if_neg (by omega : ¬c.1 < 0), if_neg (by omega : ¬c.2 < 0),
    if_pos ⟨h1, h2, h3, h4⟩]
  rfl

theorem avg_border_color_spec (hw : 1 ≤ img.w) (hh : 1 ≤ img.h) :
    avg_border_color img = some (specBorderMean img) := by
  have hall : ∀ c ∈ borderSamples img.w img.h,
      pilGetRGB img c.1 c.2 = some (rgbOf (getPx img c.1 c.2)) :=
    fun c hc => pilGetRGB_of_inB (borderSamples_inB hw hh hc)
  have hperm := (borderSamples_perm img.w img.h).map fun c => rgbOf (getPx img c.1 c.2)
  have hlen : ((borderSamples img.w img.h).map fun c => rgbOf (getPx img c.1 c.2)).length =
      ((specBorderCells img.w img.h).map fun c => rgbOf (getPx img c.1 c.2)).length :=
    hperm.length_eq
  have hlen0 : ((borderSamples img.w img.h).map fun c => rgbOf (getPx img c.1 c.2)).length ≠ 0 := by
    rw [hlen]
    simp only [List.length_map, specBorderCells, List.length_append, List.length_map,
      List.length_range]
    omega
  unfold avg_border_color
  rw [mapOpt_eq_some_map _ hall]
  simp only
  rw [if_neg hlen0]
  unfold specBorderMean
  simp only
  rw [(hperm.map RGB.r).sum_eq, (hperm.map RGB.g).sum_eq, (hperm.map RGB.b).sum_eq, hlen]

theorem specBorderCells_mean_const (hw : 1 ≤ img.w) (hh : 1 ≤ img.h) (col : RGB)
    (hcol : ∀ c : Int × Int, inB img.w img.h c → rgbOf (getPx img c.1 c.2) = col) :
    specBorderMean img = col := by
  have hmem : ∀ b ∈ (specBorderCells img.w img.h).map fun c => rgbOf (getPx img c.1 c.2),
      b = col := by
    intro b hb
    rw [List.mem_map] at hb
    obtain ⟨c, hc, rfl⟩ := hb
    exact hcol c (borderSamples_inB hw hh ((borderSamples_perm img.w img.h).mem_iff.2 hc))
  have hrepl := List.eq_replicate_of_mem hmem
  unfold specBorderMean
  simp only
  rw [hrepl]
  have hlen : ((specBorderCells img.w img.h).map fun c => rgbOf (getPx img c.1 c.2)).length ≠ 0 := by
    simp only [List.length_map, specBorderCells, List.length_append, List.length_map,
      List.length_range]
    omega
  set n := ((specBorderCells img.w img.h).map fun c => rgbOf (getPx img c.1 c.2)).length with hn
  have hmap : ∀ f : RGB → Nat, (List.replicate n col).map f = List.replicate n (f col) :=
    fun f => List.map_replicate
  rw [List.length_replicate, hmap, hmap, hmap, List.sum_replicate, List.sum_replicate,
    List.sum_replicate, smul_eq_mul, smul_eq_mul, smul_eq_mul,
    Nat.mul_div_cancel_left _ (Nat.pos_of_ne_zero hlen),
    Nat.mul_div_cancel_left _ (Nat.pos_of_ne_zero hlen),
    Nat.mul_div_cancel_left _ (Nat.pos_of_ne_zero hlen)]

theorem avg_solid (hw : 1 ≤ img.w) (hh : 1 ≤ img.h) (col : RGB)
    (hcol : ∀ c : Int × Int, inB img.w img.h c → rgbOf (getPx img c.1 c.2) = col) :
    avg_border_color img = some col := by
  rw [avg_border_color_spec hw hh, specBorderCells_mean_const hw hh col hcol]

theorem reach_of_all_match
    (hall : ∀ c : Int × Int, inB img.w img.h c → matchesRef img thr ref c) :
    ∀ c : Int × Int, inB img.w img.h c → ReachBG img thr ref c := by
  have aux : ∀ (n : Nat) (x : Int), 0 ≤ x → x < (img.w : Int) → ((n : Nat) : Int) < (img.h : Int) →
      ReachBG img thr ref (x, ((n : Nat) : Int)) := by
    intro n
    induction n with
    | zero =>
      intro x h1 h2 h3
      have hin : inB img.w img.h (x, ((0 : Nat) : Int)) := ⟨h1, h2, by omega, h3⟩
      exact ReachBG.border _ hin (Or.inl rfl) (hall _ hin)
    | succ n ih =>
      intro x h1 h2 h3
      have hn : ((n : Nat) : Int) < (img.h : Int) := by push_cast at h3 ⊢; omega
      have hR := ih x h1 h2 hn
      have hin : inB img.w img.h (x, ((n + 1 : Nat) : Int)) := ⟨h1, h2, by omega, h3⟩
      refine ReachBG.step (x, ((n : Nat) : Int)) (x, ((n + 1 : Nat) : Int)) hR ?_ hin (hall _ hin)
      have hc : ((n + 1 : Nat) : Int) = ((n : Nat) : Int) + 1 := by push_cast; ring
      rw [hc]
      unfold nbrs
      exact List.mem_cons_of_mem _ (List.mem_cons_of_mem _ (List.mem_cons_self _ _))
  intro c hc
  obtain ⟨h1, h2, h3, h4⟩ := hc
  have hc2 : c = (c.1, ((c.2.toNat : Nat) : Int)) := by
    rw [Int.toNat_of_nonneg h3]
  rw [hc2]
  exact aux c.2.toNat c.1 h1 h2 (by rw [Int.toNat_of_nonneg h3]; exact h4)

theorem color_dist_eq_zero {c ref : RGB} : color_dist c ref = 0 ↔ c = ref := by
  obtain ⟨cr, cg, cb⟩ := c
  obtain ⟨rr, rg, rb⟩ := ref
  unfold color_dist
  simp only [RGB.mk.injEq]
  omega

theorem foldl_try_push_id (L : List (Int × Int)) (s : FillSt)
    (hL : ∀ c ∈ L, ¬(inB img.w img.h c ∧ c ∉ s.visited ∧ matchesRef img thr ref c)) :
    L.foldl (try_push img thr ref) s = s := by
  induction L with
  | nil => rfl
  | cons c L ih =>
    rw [List.foldl_cons]
    have hc : try_push img thr ref s c = s := by
      unfold try_push
      rw [if_neg (hL c (List.mem_cons_self _ _))]
    rw [hc]
    exact ih (fun d hd => hL d (List.mem_cons_of_mem _ hd))

theorem floodState_transp_empty_of_no_border_match
    (hnm : ∀ c : Int × Int, inB img.w img.h c → isBorder img.w img.h c →
      ¬matchesRef img thr ref c) :
    (floodState img thr ref).transp = [] := by
  have hseed : seedState img thr ref = ⟨[], [], []⟩ := by
    unfold seedState
    apply foldl_try_push_id
    intro c hc hcond
    exact hnm c hcond.1 (borderSamples_isBorder hc) hcond.2.2
  unfold floodState
  rw [hseed, bfsAux_nil_queue _ _ rfl]

theorem renderOut_rows_empty (mask : List (Int × Int)) (h0 : img.w = 0 ∨ img.h = 0) :
    ∀ row ∈ (renderOut img mask).px, row = [] := by
  intro row hrow
  simp only [renderOut, List.mem_map, List.mem_range] at hrow
  obtain ⟨y, hy, rfl⟩ := hrow
  rcases h0 with h0 | h0
  · rw [h0]
    rfl
  · rw [h0] at hy
    cases hy

theorem remove_bg_floodfill_explicit_some (img : PImage) (tol : Int) (rc : RGB) :
    remove_bg_floodfill img tol (some rc) =
      some (renderOut img (floodState img (thresholdOf tol) rc).transp) :=
  remove_bg_floodfill_some img tol (some rc) rc rfl

theorem avg_border_color_zero_area (h0 : img.w = 0 ∨ img.h = 0) :
    avg_border_color img = none := by
  by_cases hw0 : img.w = 0
  · by_cases hh0 : img.h = 0
    · have hbs : borderSamples img.w img.h = [] := by
        rw [hw0, hh0]
        rfl
      unfold avg_border_color
      rw [hbs]
      rfl
    · have hmem : ((0 : Int), ((0 : Nat) : Int)) ∈ borderSamples img.w img.h := by
        unfold borderSamples
        apply List.mem_append_right
        rw [List.mem_flatten]
        refine ⟨[((0 : Int), ((0 : Nat) : Int)), ((img.w : Int) - 1, ((0 : Nat) : Int))], ?_, ?_⟩
        · rw [List.mem_map]
          exact ⟨0, List.mem_range.2 (by omega), rfl⟩
        · exact List.mem_cons_self _ _
      have hfail : pilGetRGB img (0 : Int) ((0 : Nat) : Int) = none := by
        unfold pilGetRGB pilGet
        rw [if_neg]
        · rfl
        · rw [hw0]
          intro hcond
          have := hcond.2.1
          simp at this
      unfold avg_border_color
      rw [mapOpt_none_of_mem hmem hfail]
  · rcases h0 with h0 | hh0
    · exact absurd h0 hw0
    · have hmem : (((0 : Nat) : Int), (0 : Int)) ∈ borderSamples img.w img.h := by
        unfold borderSamples
        apply List.mem_append_left
        rw [List.mem_flatten]
        refine ⟨[(((0 : Nat) : Int), (0 : Int)), (((0 : Nat) : Int), (img.h : Int) - 1)], ?_, ?_⟩
        · rw [List.mem_map]
          exact ⟨0, List.mem_range.2 (by omega), rfl⟩
        · exact List.mem_cons_self _ _
      have hfail : pilGetRGB img ((0 : Nat) : Int) (0 : Int) = none := by
        unfold pilGetRGB pilGet
        rw [if_neg]
        · rfl
        · rw [hh0]
          intro hcond
          have := hcond.2.2.2
          simp at this
      unfold avg_border_color
      rw [mapOpt_none_of_mem hmem hfail]

theorem remove_bg_floodfill_auto_zero_area (tol : Int) (h0 : img.w = 0 ∨ img.h = 0) :
    remove_bg_floodfill img tol none = none := by
  unfold remove_bg_floodfill resolveRef
  rw [avg_border_color_zero_area h0]

theorem remove_bg_floodfill_pos_some (tol : Int) (refOpt : Option RGB)
    (hw : 1 ≤ img.w) (hh : 1 ≤ img.h) :
    ∃ out, remove_bg_floodfill img tol refOpt = some out := by
  cases refOpt with
  | some rc => exact ⟨_, remove_bg_floodfill_explicit_some img tol rc⟩
  | none =>
    refine ⟨_, remove_bg_floodfill_some img tol none (specBorderMean img) ?_⟩
    unfold resolveRef
    exact avg_border_color_spec hw hh

theorem hex_to_rgb_invalid (h : Option String) (hlen : (hexDigits h).length ≠ 6) :
    hex_to_rgb h = .error .invalidColor := by
  unfold hex_to_rgb
  revert hlen
  generalize hexDigits h = l
  intro hlen
  rcases l with _ | ⟨a0, _ | ⟨a1, _ | ⟨a2, _ | ⟨a3, _ | ⟨a4, _ | ⟨a5, _ | ⟨a6, t⟩⟩⟩⟩⟩⟩⟩ <;>
    first
      | rfl
      | exact absurd rfl hlen

theorem gate_of_pick_target (raw : String) (fmt mime : String)
    (hp : pick_target raw = .ok (fmt, mime)) :
    (fmt = "PNG" → convertRemoveBgGate raw true = .ok (fmt, mime)) ∧
    (fmt ≠ "PNG" → convertRemoveBgGate raw true = .error .removeBgNotPng) := by
  unfold convertRemoveBgGate
  rw [hp]
  constructor
  · intro hf
    simp only
    rw [if_neg]
    intro hcond
    exact hcond.2 hf
  · intro hf
    simp only
    rw [if_pos ⟨by trivial, hf⟩]

theorem thresholdOf_int_formula (t : Int) :
    (thresholdOf t : Int) = 21 * (max 0 (min 100 t)) / 10 := by
  unfold thresholdOf
  have hm0 : 0 ≤ max 0 (min 100 t) := le_max_left 0 _
  calc ((21 * (max 0 (min 100 t)).toNat / 10 : Nat) : Int)
      = ((21 * (max 0 (min 100 t)).toNat : Nat) : Int) / ((10 : Nat) : Int) :=
        Int.ofNat_tdiv _ _
    _ = 21 * (max 0 (min 100 t)) / 10 := by
        rw [Nat.cast_mul, Int.toNat_of_nonneg hm0]
        norm_num

theorem thresholdOf_le (t : Int) : thresholdOf t ≤ 210 := by
  unfold thresholdOf
  have h1 : (max 0 (min 100 t)).toNat ≤ 100 := by omega
  calc 21 * (max 0 (min 100 t)).toNat / 10 ≤ 21 * 100 / 10 :=
        Nat.div_le_div_right (by omega)
    _ = 210 := rfl

instance [DecidableEq e] [DecidableEq a] : DecidableEq (Except e a) := fun x y =>
  match x, y with
  | .ok u, .ok v =>
    if h : u = v then .isTrue (by rw [h]) else .isFalse (by intro hc; cases hc; exact h rfl)
  | .error u, .error v =>
    if h : u = v then .isTrue (by rw [h]) else .isFalse (by intro hc; cases hc; exact h rfl)
  | .ok _, .error _ => .isFalse (by intro hc; cases hc)
  | .error _, .ok _ => .isFalse (by intro hc; cases hc)

/-- Spec §8's auto-mode test image: 4×4, all border pixels RGB (10,20,30),
all interior pixels RGB (200,200,200), fully opaque. -/
def img4c : PImage :=
  ⟨4, 4, [[⟨10, 20, 30, 255⟩, ⟨10, 20, 30, 255⟩, ⟨10, 20, 30, 255⟩, ⟨10, 20, 30, 255⟩],
          [⟨10, 20, 30, 255⟩, ⟨200, 200, 200, 255⟩, ⟨200, 200, 200, 255⟩, ⟨10, 20, 30, 255⟩],
          [⟨10, 20, 30, 255⟩, ⟨200, 200, 200, 255⟩, ⟨200, 200, 200, 255⟩, ⟨10, 20, 30, 255⟩],
          [⟨10, 20, 30, 255⟩, ⟨10, 20, 30, 255⟩, ⟨10, 20, 30, 255⟩, ⟨10, 20, 30, 255⟩]]⟩

/-- The expected output for `img4c` at tolerance 10: the 12 border pixels
have alpha 0, the 4 interior pixels keep alpha 255. -/
def out4c : PImage :=
  ⟨4, 4, [[⟨10, 20, 30, 0⟩, ⟨10, 20, 30, 0⟩, ⟨10, 20, 30, 0⟩, ⟨10, 20, 30, 0⟩],
          [⟨10, 20, 30, 0⟩, ⟨200, 200, 200, 255⟩, ⟨200, 200, 200, 255⟩, ⟨10, 20, 30, 0⟩],
          [⟨10, 20, 30, 0⟩, ⟨200, 200, 200, 255⟩, ⟨200, 200, 200, 255⟩, ⟨10, 20, 30, 0⟩],
          [⟨10, 20, 30, 0⟩, ⟨10, 20, 30, 0⟩, ⟨10, 20, 30, 0⟩, ⟨10, 20, 30, 0⟩]]⟩

/-- 3×3 image with a black border enclosing a white center: against a
white reference no border pixel matches, so nothing is filled and the
enclosed white region keeps its alpha. -/
def img3w : PImage :=
  ⟨3, 3, [[⟨0, 0, 0, 255⟩, ⟨0, 0, 0, 255⟩, ⟨0, 0, 0, 255⟩],
          [⟨0, 0, 0, 255⟩, ⟨255, 255, 255, 255⟩, ⟨0, 0, 0, 255⟩],
          [⟨0, 0, 0, 255⟩, ⟨0, 0, 0, 255⟩, ⟨0, 0, 0, 255⟩]]⟩

/-- 2×2 solid-color image (RGB (7,7,7), alpha 9). -/
def img2s : PImage :=
  ⟨2, 2, [[⟨7, 7, 7, 9⟩, ⟨7, 7, 7, 9⟩], [⟨7, 7, 7, 9⟩, ⟨7, 7, 7, 9⟩]]⟩

/-- `img2s` fully cleared: every pixel alpha 0. -/
def out2s : PImage :=
  ⟨2, 2, [[⟨7, 7, 7, 0⟩, ⟨7, 7, 7, 0⟩], [⟨7, 7, 7, 0⟩, ⟨7, 7, 7, 0⟩]]⟩

/-- 2×2 image all RGB (5,5,5): no pixel equals the reference (9,9,9). -/
def img2n : PImage :=
  ⟨2, 2, [[⟨5, 5, 5, 255⟩, ⟨5, 5, 5, 255⟩], [⟨5, 5, 5, 255⟩, ⟨5, 5, 5, 255⟩]]⟩

/-- C1: for every image, tolerance and resolved reference color, the
output of `remove_bg_floodfill` zeroes the alpha of exactly the pixels
reachable from a border pixel through a 4-connected chain of pixels each
within the Manhattan threshold of the reference (`ReachBG`), and leaves
every other pixel unchanged — in particular an enclosed background-
colored interior region keeps its alpha.  As `ReachBG` is defined
without reference to any traversal order, the result is traversal-order
independent. -/
theorem claim1_mask_iff_reachable (img : PImage) (tolerance : Int) (refOpt : Option RGB)
    (ref : RGB) (out : PImage)
    (hres : resolveRef img refOpt = some ref)
    (hout : remove_bg_floodfill img tolerance refOpt = some out)
    (x y : Nat) (hx : x < img.w) (hy : y < img.h) :
    (ReachBG img (thresholdOf tolerance) ref ((x : Int), (y : Int)) →
      getPx out (x : Int) (y : Int) =
        ⟨(getPx img (x : Int) (y : Int)).r, (getPx img (x : Int) (y : Int)).g,
         (getPx img (x : Int) (y : Int)).b, 0⟩) ∧
    (¬ReachBG img (thresholdOf tolerance) ref ((x : Int), (y : Int)) →
      getPx out (x : Int) (y : Int) = getPx img (x : Int) (y : Int)) := by
  rw [remove_bg_floodfill_some img tolerance refOpt ref hres] at hout
  injection hout with h'
  subst h'
  rw [@getPx_renderOut img _ x y hx hy]
  constructor
  · intro hr
    rw [if_pos ((floodState_transp_iff img (thresholdOf tolerance) ref _).2 hr)]
  · intro hr
    rw [if_neg (fun hm => hr ((floodState_transp_iff img (thresholdOf tolerance) ref _).1 hm))]

theorem claim1_witness :
    (ReachBG img3w (thresholdOf 30) ⟨255, 255, 255⟩ (((1 : Nat) : Int), ((1 : Nat) : Int)) →
      getPx img3w ((1 : Nat) : Int) ((1 : Nat) : Int) =
        ⟨(getPx img3w ((1 : Nat) : Int) ((1 : Nat) : Int)).r,
         (getPx img3w ((1 : Nat) : Int) ((1 : Nat) : Int)).g,
         (getPx img3w ((1 : Nat) : Int) ((1 : Nat) : Int)).b, 0⟩) ∧
    (¬ReachBG img3w (thresholdOf 30) ⟨255, 255, 255⟩ (((1 : Nat) : Int), ((1 : Nat) : Int)) →
      getPx img3w ((1 : Nat) : Int) ((1 : Nat) : Int) =
        getPx img3w ((1 : Nat) : Int) ((1 : Nat) : Int)) :=
  claim1_mask_iff_reachable img3w 30 (some ⟨255, 255, 255⟩) ⟨255, 255, 255⟩ img3w
    rfl (by decide) 1 1 (by decide) (by decide)

/-- C2 counterexample: on a zero-area image in auto mode the claim fails:
`avg_border_color` divides by zero (0×0) or indexes out of range (0×n,
n×0), so `remove_bg_floodfill` raises instead of completing — modelled by
`none`. -/
theorem claim2_counterexample : remove_bg_floodfill ⟨0, 0, []⟩ 30 none = none := rfl

/-- C2 amended: a zero-area image is handled without errors when an
explicit reference color is supplied, producing an empty output of the
same dimensions; a 1×1 image is handled without errors in every mode;
but a zero-area image in auto mode raises an exception inside
`avg_border_color`. -/
theorem claim2_degenerate_amended :
    (∀ (img : PImage) (tol : Int) (rc : RGB), img.w = 0 ∨ img.h = 0 →
      ∃ out, remove_bg_floodfill img tol (some rc) = some out ∧
        out.w = img.w ∧ out.h = img.h ∧ ∀ row ∈ out.px, row = []) ∧
    (∀ (img : PImage) (tol : Int) (refOpt : Option RGB), img.w = 1 → img.h = 1 →
      ∃ out, remove_bg_floodfill img tol refOpt = some out) ∧
    (∀ (img : PImage) (tol : Int), img.w = 0 ∨ img.h = 0 →
      remove_bg_floodfill img tol none = none) := by
  refine ⟨?_, ?_, ?_⟩
  · intro img tol rc h0
    exact ⟨_, remove_bg_floodfill_explicit_some img tol rc, rfl, rfl,
      renderOut_rows_empty _ h0⟩
  · intro img tol refOpt hw hh
    exact remove_bg_floodfill_pos_some tol refOpt (by omega) (by omega)
  · intro img tol h0
    exact remove_bg_floodfill_auto_zero_area tol h0

theorem claim2_witness : remove_bg_floodfill ⟨0, 5, []⟩ 30 none = none :=
  claim2_degenerate_amended.2.2 ⟨0, 5, []⟩ 30 (Or.inl rfl)

/-- C3: in auto mode the reference color is the per-channel
integer-truncated mean over the border traversal that lists both full
rows and both full columns (corners twice) — `avg_border_color` agrees
with the spec-side `specBorderMean` on every image with positive
dimensions — and on the spec's 4×4 example the computed reference is
(10,20,30), tolerance 10 maps to threshold 21, and the fill clears
exactly the 12 border pixels while the 4 interior pixels keep alpha 255
(`out4c`). -/
theorem claim3_auto_reference :
    (∀ img : PImage, 1 ≤ img.w → 1 ≤ img.h →
      avg_border_color img = some (specBorderMean img)) ∧
    avg_border_color img4c = some ⟨10, 20, 30⟩ ∧
    thresholdOf 10 = 21 ∧
    remove_bg_floodfill img4c 10 none = some out4c :=
  ⟨fun _ hw hh => avg_border_color_spec hw hh, by decide, rfl, by decide⟩

theorem claim3_witness : avg_border_color img4c = some (specBorderMean img4c) :=
  claim3_auto_reference.1 img4c (by decide) (by decide)

/-- C4: the internal threshold is `⌊2.1 · clamp(tolerance, 0, 100)⌋`
(with `int(2.1 * tol)` equal to `⌊21·tol/10⌋` for every clamped integer
tolerance, see `thresholdOf`), is never negative (it is a `Nat`), never
exceeds 210, and equals 210 exactly at tolerance 100; and at tolerance
100 a solid-color image (reference resolved in auto mode, as when no
explicit color is given) becomes fully transparent. -/
theorem claim4_threshold :
    (∀ t : Int, (thresholdOf t : Int) = 21 * (max 0 (min 100 t)) / 10 ∧
      0 ≤ (thresholdOf t : Int) ∧ thresholdOf t ≤ 210) ∧
    thresholdOf 100 = 210 ∧
    (∀ (img : PImage) (col : RGB) (out : PImage),
      1 ≤ img.w → 1 ≤ img.h →
      (∀ c : Int × Int, inB img.w img.h c → rgbOf (getPx img c.1 c.2) = col) →
      remove_bg_floodfill img 100 none = some out →
      ∀ x y : Nat, x < img.w → y < img.h → (getPx out (x : Int) (y : Int)).a = 0) := by
  refine ⟨fun t => ⟨thresholdOf_int_formula t, Int.ofNat_nonneg _, thresholdOf_le t⟩,
    rfl, ?_⟩
  intro img col out hw hh hcol hout x y hx hy
  have hres : resolveRef img none = some col := by
    unfold resolveRef
    exact avg_solid hw hh col hcol
  rw [remove_bg_floodfill_some img 100 none col hres] at hout
  injection hout with h'
  subst h'
  rw [@getPx_renderOut img _ x y hx hy]
  have hall : ∀ c : Int × Int, inB img.w img.h c →
      matchesRef img (thresholdOf 100) col c := by
    intro c hc
    unfold matchesRef
    rw [hcol c hc]
    have : color_dist col col = 0 := color_dist_eq_zero.2 rfl
    omega
  have hin : inB img.w img.h ((x : Int), (y : Int)) := by
    refine ⟨?_, ?_, ?_, ?_⟩ <;> simp <;> omega
  rw [if_pos ((floodState_transp_iff img (thresholdOf 100) col _).2
    (reach_of_all_match hall _ hin))]

theorem claim4_witness : (getPx out2s ((0 : Nat) : Int) ((0 : Nat) : Int)).a = 0 :=
  claim4_threshold.2.2 img2s ⟨7, 7, 7⟩ out2s (by decide) (by decide)
    (by
      intro c hc
      obtain ⟨h1, h2, h3, h4⟩ := hc
      obtain ⟨cx, cy⟩ := c
      simp only at h1 h2 h3 h4 ⊢
      have hw2 : (img2s.w : Int) = 2 := rfl
      have hh2 : (img2s.h : Int) = 2 := rfl
      rw [hw2] at h2
      rw [hh2] at h4
      have hx : cx = 0 ∨ cx = 1 := by omega
      have hy : cy = 0 ∨ cy = 1 := by omega
      rcases hx with rfl | rfl <;> rcases hy with rfl | rfl <;> decide)
    (by decide) 0 0 (by decide) (by decide)

/-- C5: the output image has the input's dimensions (and a well-formed
`h × w` grid), copies every in-bounds pixel's R, G, B unchanged, and sets
alpha to 0 exactly on the cells of the flood-fill transparency mask,
preserving the original alpha elsewhere. -/
theorem claim5_frame (img : PImage) (tolerance : Int) (refOpt : Option RGB)
    (ref : RGB) (out : PImage)
    (hres : resolveRef img refOpt = some ref)
    (hout : remove_bg_floodfill img tolerance refOpt = some out) :
    out.w = img.w ∧ out.h = img.h ∧ wellFormed out ∧
    ∀ x y : Nat, x < img.w → y < img.h →
      rgbOf (getPx out (x : Int) (y : Int)) = rgbOf (getPx img (x : Int) (y : Int)) ∧
      (getPx out (x : Int) (y : Int)).a =
        (if ((x : Int), (y : Int)) ∈ (floodState img (thresholdOf tolerance) ref).transp
         then 0 else (getPx img (x : Int) (y : Int)).a) := by
  rw [remove_bg_floodfill_some img tolerance refOpt ref hres] at hout
  injection hout with h'
  subst h'
  refine ⟨rfl, rfl, renderOut_wellFormed _, ?_⟩
  intro x y hx hy
  rw [@getPx_renderOut img _ x y hx hy]
  by_cases hm : ((x : Int), (y : Int)) ∈ (floodState img (thresholdOf tolerance) ref).transp
  · rw [if_pos hm, if_pos hm]
    exact ⟨rfl, rfl⟩
  · rw [if_neg hm, if_neg hm]
    exact ⟨rfl, rfl⟩

theorem claim5_witness : out4c.w = img4c.w :=
  (claim5_frame img4c 10 (some ⟨10, 20, 30⟩) ⟨10, 20, 30⟩ out4c rfl (by decide)).1

/-- C6: hex parsing resolves `"#abc"` to (170,187,204) by digit
duplication, `"a1b2c3"` to (161,178,195), and rejects with the
`InvalidColor` abort every input whose normalized digit string has a
length other than 6 after the 3-digit expansion — in particular the
5-digit `"12345"`. -/
theorem claim6_hex :
    hex_to_rgb (some "#abc") = .ok (170, 187, 204) ∧
    hex_to_rgb (some "a1b2c3") = .ok (161, 178, 195) ∧
    hex_to_rgb (some "12345") = .error .invalidColor ∧
    (∀ s : String, (hexDigits (some s)).length ≠ 6 →
      hex_to_rgb (some s) = .error .invalidColor) :=
  ⟨by decide, by decide, by decide, fun s hs => hex_to_rgb_invalid (some s) hs⟩

theorem claim6_witness : hex_to_rgb (some "1234567") = .error .invalidColor :=
  claim6_hex.2.2.2 "1234567" (by decide)

/-- C7: the flood fill is idempotent: running it again with the same
tolerance and reference parameters on its own output returns that output
unchanged — the output has the same dimensions and RGB data, so the
resolved reference, the threshold and the transparency mask are all
identical on the second pass, and re-zeroing already-zero alpha is a
no-op. -/
theorem claim7_idempotent (img : PImage) (tolerance : Int) (refOpt : Option RGB)
    (out : PImage) (hwf : wellFormed img)
    (hout : remove_bg_floodfill img tolerance refOpt = some out) :
    remove_bg_floodfill out tolerance refOpt = some out :=
  remove_bg_floodfill_idem_aux hwf tolerance refOpt out hout

theorem claim7_witness : remove_bg_floodfill out4c 10 none = some out4c :=
  claim7_idempotent img4c 10 none out4c (by decide) (by decide)

/-- C8: at tolerance 0 the threshold is 0, so a pixel matches only if its
RGB equals the reference exactly; when no border pixel's RGB equals the
resolved reference, no seed fires, the mask stays empty, and every
pixel's alpha is unchanged. -/
theorem claim8_noop (img : PImage) (refOpt : Option RGB) (ref : RGB) (out : PImage)
    (hres : resolveRef img refOpt = some ref)
    (hnm : ∀ c : Int × Int, inB img.w img.h c → isBorder img.w img.h c →
      rgbOf (getPx img c.1 c.2) ≠ ref)
    (hout : remove_bg_floodfill img 0 refOpt = some out) :
    ∀ x y : Nat, x < img.w → y < img.h →
      (getPx out (x : Int) (y : Int)).a = (getPx img (x : Int) (y : Int)).a := by
  rw [remove_bg_floodfill_some img 0 refOpt ref hres] at hout
  injection hout with h'
  subst h'
  have hthr : thresholdOf 0 = 0 := rfl
  have hempty : (floodState img (thresholdOf 0) ref).transp = [] := by
    apply floodState_transp_empty_of_no_border_match
    intro c hcin hcb hm
    unfold matchesRef at hm
    rw [hthr] at hm
    exact hnm c hcin hcb (color_dist_eq_zero.1 (Nat.le_zero.1 hm))
  intro x y hx hy
  rw [@getPx_renderOut img _ x y hx hy, hempty, if_neg (List.not_mem_nil _)]

theorem claim8_witness :
    (getPx img2n ((1 : Nat) : Int) ((1 : Nat) : Int)).a =
      (getPx img2n ((1 : Nat) : Int) ((1 : Nat) : Int)).a :=
  claim8_noop img2n (some ⟨9, 9, 9⟩) ⟨9, 9, 9⟩ img2n rfl
    (by
      intro c hc hcb
      obtain ⟨h1, h2, h3, h4⟩ := hc
      obtain ⟨cx, cy⟩ := c
      simp only at h1 h2 h3 h4 ⊢
      have hw2 : (img2n.w : Int) = 2 := rfl
      have hh2 : (img2n.h : Int) = 2 := rfl
      rw [hw2] at h2
      rw [hh2] at h4
      have hx : cx = 0 ∨ cx = 1 := by omega
      have hy : cy = 0 ∨ cy = 1 := by omega
      rcases hx with rfl | rfl <;> rcases hy with rfl | rfl <;> decide)
    (by decide) 1 1 (by decide) (by decide)

/-- C9 counterexample: WEBP is an alpha-capable target — `prepare_modes`
preserves alpha for every save format except JPEG — yet a conversion to
webp with background removal enabled is rejected, so it is not exactly
the non-alpha-capable targets that are rejected. -/
theorem claim9_counterexample :
    pick_target "webp" = .ok ("WEBP", "image/webp") ∧
    prepareModesKeepsAlpha "WEBP" = true ∧
    convertRemoveBgGate "webp" true = .error .removeBgNotPng := by
  refine ⟨by decide, by decide, by decide⟩

/-- C9 amended: with background removal requested, the `/convert` route
rejects with the client error every target whose PIL save format is not
exactly `"PNG"` — including alpha-capable targets such as webp and tiff —
and only PNG targets proceed.  The rejection happens in the gate, before
any removal runs. -/
theorem claim9_gate_amended (raw fmt mime : String)
    (hp : pick_target raw = .ok (fmt, mime)) :
    (fmt = "PNG" → convertRemoveBgGate raw true = .ok (fmt, mime)) ∧
    (fmt ≠ "PNG" → convertRemoveBgGate raw true = .error .removeBgNotPng) :=
  gate_of_pick_target raw fmt mime hp

theorem claim9_witness :
    ("PNG" = "PNG" → convertRemoveBgGate "png" true = .ok ("PNG", "image/png")) ∧
    ("PNG" ≠ "PNG" → convertRemoveBgGate "png" true = .error .removeBgNotPng) :=
  claim9_gate_amended "png" "PNG" "image/png" (by decide)

/-- C10: `hex_to_rgb` validates only the length of the digit string, not
its characters: the 6-character non-hex string `"zzzzzz"` passes the
length check and then `int("zz", 16)` raises an uncaught `ValueError`
(`valueError`), not the handled `InvalidColor` abort. -/
theorem claim10_hex_value_error :
    hex_to_rgb (some "zzzzzz") = .error .valueError ∧
    hex_to_rgb (some "zzzzzz") ≠ .error .invalidColor := by
  refine ⟨by decide, by decide⟩
